import Mathlib

/-!
A shallow embedding of the task-bot core from `src/bot.py`: the shorthand
parser (`parse_task`), the scoring engine (`calc_date_value`,
`calc_priority_value`, `calc_total_score`), task-number allocation
(`next_available_id`), listing (`get_tasks`) and the command handlers with
their one-slot undo memory (`cmd_done`, `cmd_del`, `cmd_edit`, `cmd_undo`,
`handle_message`).

Strings are modelled as `List Char`.  The Python regexes `\s`, `\S` and `\d`
are modelled over their ASCII meaning (the shorthand grammar and every claim
below only involve ASCII text); `str.upper` is modelled by `Char.toUpper`,
which agrees with Python on ASCII.
-/

set_option maxRecDepth 40000

namespace TaskBot

/-- ASCII whitespace, the characters matched by the regex class `\s`
(space, tab, newline, carriage return, vertical tab, form feed). -/
def isSpace (c : Char) : Bool :=
  c = ' ' || c = '\t' || c = '\n' || c = '\r' || c = '\x0B' || c = '\x0C'

/-- ASCII decimal digit, the characters matched by the regex class `\d`. -/
def isDigit (c : Char) : Bool :=
  '0' ≤ c && c ≤ '9'

/-- Numeric value of a digit character, as computed by Python `int(c)`. -/
def digitVal (c : Char) : Nat :=
  c.toNat - '0'.toNat

/-- `str.strip()` from the left only. -/
def lstrip (l : List Char) : List Char :=
  l.dropWhile isSpace

/-- Drop the trailing whitespace run. -/
def rstrip : List Char → List Char
  | [] => []
  | c :: rest =>
    let r := rstrip rest
    if r.isEmpty && isSpace c then [] else c :: r

/-- Python `str.strip()`: drop leading and trailing whitespace. -/
def strip (l : List Char) : List Char :=
  rstrip (lstrip l)

/-- `re.sub(r"\s+", " ", s)`: replace every maximal whitespace run by a
single space. -/
def squeeze (l : List Char) : List Char :=
  l.foldr
    (fun c acc =>
      if isSpace c then
        match acc with
        | a :: _ => if a = ' ' then acc else ' ' :: acc
        | [] => [' ']
      else c :: acc)
    []

/-- Match attempt for `@(\S+)` anchored at the start of the string: an `@`
followed by at least one non-whitespace character.  Returns the group
(the maximal non-whitespace run) and the length of the whole match. -/
def tryTag : List Char → Option (List Char × Nat)
  | [] => none
  | a :: rest =>
    if a = '@' then
      let g := rest.takeWhile (fun c => !isSpace c)
      if g.isEmpty then none else some (g, 1 + g.length)
    else none

/-- Match attempt for `\|e\s*(\S+)` (with `re.IGNORECASE`, so `e` or `E`)
anchored at the start of the string. -/
def tryProj : List Char → Option (List Char × Nat)
  | a :: b :: rest =>
    if a = '|' && (b = 'e' || b = 'E') then
      let ws := rest.takeWhile isSpace
      let g := (rest.drop ws.length).takeWhile (fun c => !isSpace c)
      if g.isEmpty then none else some (g, 2 + ws.length + g.length)
    else none
  | _ => none

/-- Match attempt for `\|p\s*([UuNn])\s*(\d)` anchored at the start of the
string.  Returns the two captured characters and the match length. -/
def tryPrio : List Char → Option ((Char × Char) × Nat)
  | a :: b :: rest =>
    if a = '|' && b = 'p' then
      let ws := rest.takeWhile isSpace
      match rest.drop ws.length with
      | d :: rest2 =>
        if d = 'U' || d = 'u' || d = 'N' || d = 'n' then
          let ws2 := rest2.takeWhile isSpace
          match rest2.drop ws2.length with
          | g :: _ =>
            if isDigit g then some ((d, g), 2 + ws.length + 1 + ws2.length + 1)
            else none
          | [] => none
        else none
      | [] => none
    else none
  | _ => none

/-- Match attempt for `\|f\s*(\d{6})` anchored at the start of the string. -/
def tryDate : List Char → Option (List Char × Nat)
  | a :: b :: rest =>
    if a = '|' && b = 'f' then
      let ws := rest.takeWhile isSpace
      let ds := (rest.drop ws.length).takeWhile isDigit
      if ds.length ≥ 6 then some (ds.take 6, 2 + ws.length + 6) else none
    else none
  | _ => none

/-- `re.search` followed by removal of the matched span: scan positions left
to right, and at the first position where `try1` matches, return the payload
together with the string with the matched span cut out
(`raw[:m.start()] + raw[m.end():]`). -/
def searchCut {α : Type} (try1 : List Char → Option (α × Nat)) :
    List Char → Option (α × List Char)
  | [] => none
  | c :: rest =>
    match try1 (c :: rest) with
    | some (p, n) => some (p, (c :: rest).drop n)
    | none =>
      match searchCut try1 rest with
      | some (p, res) => some (p, c :: res)
      | none => none

/-- The structured field set produced by the parser
(the dict returned by `parse_task`). -/
structure Parsed where
  title : List Char
  tag : Option (List Char)
  project : Option (List Char)
  priority_str : Option (List Char)
  date_str : Option (List Char)
deriving DecidableEq, Repr

/-- `parse_task` from `src/bot.py`: strip the input, extract (in this order)
the `@tag`, `|e` project, `|p` priority and `|f` date tokens, each at most
once, removing each matched span, then collapse whitespace runs in the
residue to single spaces and trim it to obtain the title. -/
def parse_task (text : List Char) : Parsed :=
  let raw0 := strip text
  let (tag, raw1) :=
    match searchCut tryTag raw0 with
    | some (g, res) => (some (g.map Char.toUpper), res)
    | none => (none, raw0)
  let (project, raw2) :=
    match searchCut tryProj raw1 with
    | some (g, res) => (some g, res)
    | none => (none, raw1)
  let (prio, raw3) :=
    match searchCut tryPrio raw2 with
    | some (dg, res) => (some [Char.toUpper dg.1, dg.2], res)
    | none => (none, raw2)
  let (dstr, raw4) :=
    match searchCut tryDate raw3 with
    | some (g, res) => (some g, res)
    | none => (none, raw3)
  { title := strip (squeeze raw4)
    tag := tag
    project := project
    priority_str := prio
    date_str := dstr }

example :
    parse_task "Revisar doc @FGR |e Sellout |pU2 |f150226".data =
      ⟨"Revisar doc".data, some "FGR".data, some "Sellout".data,
        some "U2".data, some "150226".data⟩ := by
  decide

/-! ## The four matchers as independent passes

To reason about extraction order (spec §4.1 says it does not matter), the
four token matchers are packaged as independent passes over a working
state; `parse_task` is the composition in the source's fixed order. -/

/-- A token matcher of the shorthand grammar. -/
inductive Tok where
  | tagT
  | projT
  | prioT
  | dateT
deriving DecidableEq, Repr

/-- Working state of the extraction pass: the residual text and the fields
matched so far. -/
structure ParseSt where
  raw : List Char
  tag : Option (List Char)
  project : Option (List Char)
  priority_str : Option (List Char)
  date_str : Option (List Char)
deriving DecidableEq, Repr

/-- Run one matcher on the working state: search the residual text, and on
a match store the (normalized) payload and cut the matched span out. -/
def applyTok (s : ParseSt) : Tok → ParseSt
  | .tagT =>
    match searchCut tryTag s.raw with
    | some (g, res) => { s with raw := res, tag := some (g.map Char.toUpper) }
    | none => s
  | .projT =>
    match searchCut tryProj s.raw with
    | some (g, res) => { s with raw := res, project := some g }
    | none => s
  | .prioT =>
    match searchCut tryPrio s.raw with
    | some (dg, res) =>
      { s with raw := res, priority_str := some [Char.toUpper dg.1, dg.2] }
    | none => s
  | .dateT =>
    match searchCut tryDate s.raw with
    | some (g, res) => { s with raw := res, date_str := some g }
    | none => s

/-- Run the four matchers in the given order, then normalize the residual
into the title. -/
def parseWithOrder (order : List Tok) (text : List Char) : Parsed :=
  let s := order.foldl applyTok
    { raw := strip text, tag := none, project := none
      priority_str := none, date_str := none }
  { title := strip (squeeze s.raw), tag := s.tag, project := s.project
    priority_str := s.priority_str, date_str := s.date_str }

/-- The source's extraction order: tag, project, priority, date. -/
def codeOrder : List Tok := [.tagT, .projT, .prioT, .dateT]

/-- `parse_task` is exactly the composition of the four passes in the
source's order. -/
theorem parse_task_eq_parseWithOrder (text : List Char) :
    parse_task text = parseWithOrder codeOrder text := by
  unfold parse_task parseWithOrder codeOrder
  simp only [List.foldl_cons, List.foldl_nil, applyTok]
  rcases h1 : searchCut tryTag (strip text) with _ | ⟨g1, r1⟩ <;>
    simp only [h1] <;>
    (rcases h2 : searchCut tryProj _ with _ | ⟨g2, r2⟩ <;>
      simp only [h2] <;>
      (rcases h3 : searchCut tryPrio _ with _ | ⟨g3, r3⟩ <;>
        simp only [h3] <;>
        (rcases h4 : searchCut tryDate _ with _ | ⟨g4, r4⟩ <;>
          simp only [h4])))

/-! ## Calendar arithmetic

`datetime.date` differences, modelled by a day count in the proleptic
Gregorian calendar. -/

/-- A calendar date, as produced by `datetime.strptime(s, "%d%m%y").date()`. -/
structure CivilDate where
  year : Nat
  month : Nat
  day : Nat
deriving DecidableEq, Repr

/-- Gregorian leap year. -/
def isLeap (y : Nat) : Bool :=
  y % 4 = 0 && (y % 100 ≠ 0 || y % 400 = 0)

/-- Length of month `m` of year `y` (0 for an out-of-range month). -/
def daysInMonth (y m : Nat) : Nat :=
  if m = 1 then 31
  else if m = 2 then (if isLeap y then 29 else 28)
  else if m = 3 then 31
  else if m = 4 then 30
  else if m = 5 then 31
  else if m = 6 then 30
  else if m = 7 then 31
  else if m = 8 then 31
  else if m = 9 then 30
  else if m = 10 then 31
  else if m = 11 then 30
  else if m = 12 then 31
  else 0

/-- Days in year `y` strictly before month `m`. -/
def daysBeforeMonth (y m : Nat) : Nat :=
  (List.range' 1 (m - 1)).foldl (fun acc mm => acc + daysInMonth y mm) 0

/-- Day number of a date (days since the epoch of the proleptic Gregorian
calendar), so that subtracting two day numbers gives the day difference
computed by Python `(d1 - d2).days`. -/
def toDayNumber (d : CivilDate) : Nat :=
  365 * (d.year - 1) + (d.year - 1) / 4 - (d.year - 1) / 100 + (d.year - 1) / 400
    + daysBeforeMonth d.year d.month + d.day

/-- `datetime.strptime(s, "%d%m%y").date()`, modelled for the six-character
format the shorthand grammar produces: on a six-character string `strptime`
must split it two digits + two digits + two digits, range-check day and month
against the calendar, and map the two-digit year through the POSIX pivot
(00–68 → 2000–2068, 69–99 → 1969–1999); any failure raises `ValueError`,
modelled as `none`.  (On four- or five-character digit strings Python would
also accept a one-digit day or month; no claim involves such strings, and
this model treats them as unparseable.) -/
def parseDDMMYY (l : List Char) : Option CivilDate :=
  match l with
  | [d1, d2, m1, m2, y1, y2] =>
    if isDigit d1 && isDigit d2 && isDigit m1 && isDigit m2
        && isDigit y1 && isDigit y2 then
      let dd := 10 * digitVal d1 + digitVal d2
      let mm := 10 * digitVal m1 + digitVal m2
      let yy := 10 * digitVal y1 + digitVal y2
      let y := if yy ≤ 68 then 2000 + yy else 1900 + yy
      if 1 ≤ mm && mm ≤ 12 && 1 ≤ dd && dd ≤ daysInMonth y mm then
        some ⟨y, mm, dd⟩
      else none
    else none
  | _ => none

/-! ## Scoring engine -/

/-- The fixed tag-weight table `TAG_VALUES = {"FGR": 3, "CETS": 3, "CS": 2}`,
with the dictionary's `.get(tag, 0)` default folded in. -/
def TAG_VALUES (t : List Char) : Int :=
  if t = "FGR".data then 3
  else if t = "CETS".data then 3
  else if t = "CS".data then 2
  else 0

/-- `calc_date_value` from `src/bot.py`.  The `try`/`except ValueError`
around the date parse makes this total: an unparseable date contributes 0. -/
def calc_date_value (date_str : Option (List Char)) (today : CivilDate) : Int :=
  match date_str with
  | none => 0
  | some l =>
    if l.isEmpty then 0
    else
      match parseDDMMYY l with
      | none => 0
      | some d =>
        let delta : Int := (toDayNumber d : Int) - (toDayNumber today : Int)
        if delta ≤ 0 then 3
        else if delta ≤ 3 then 3
        else if delta ≤ 15 then 2
        else 1

/-- `calc_priority_value` from `src/bot.py`.  The function indexes
`priority_str[1]` and converts it with `int(...)` without any guard, so it
raises `IndexError` on a one-character string and `ValueError` when the
second character is not a digit; an exceptional outcome is modelled as
`none`.  (`None` and the empty string are falsy, hence return 0.) -/
def calc_priority_value : Option (List Char) → Option Int
  | none => some 0
  | some [] => some 0
  | some (c :: rest) =>
    let urgency : Int := if c = 'U' then 1 else -1
    match rest with
    | [] => none
    | d :: _ => if isDigit d then some (urgency + digitVal d) else none

/-- `calc_total_score` from `src/bot.py`: tag weight plus priority value plus
date value; `none` when `calc_priority_value` raises. -/
def calc_total_score (tag priority_str date_str : Option (List Char))
    (today : CivilDate) : Option Int :=
  let tag_val : Int :=
    match tag with
    | none => 0
    | some t => if t.isEmpty then 0 else TAG_VALUES t
  (calc_priority_value priority_str).map
    (fun pv => tag_val + pv + calc_date_value date_str today)

example :
    calc_total_score (some "FGR".data) (some "U2".data) (some "150226".data)
      ⟨2026, 2, 10⟩ = some 8 := by
  decide

/-! ## Task store, listing and command handlers

The `tasks` table is modelled as a list of rows in insertion order (the
order the store returns them); `ctx.bot_data`, which holds the per-owner
undo slots under the keys `undo_<user_id>`, is modelled as an association
list with dictionary semantics (set replaces, pop removes). -/

/-- One row of the `tasks` table: internal storage `id`, owner, per-owner
`task_id` handle, the five content fields, and the `done` flag. -/
structure Task where
  id : Nat
  user_id : Nat
  task_id : Nat
  title : List Char
  tag : Option (List Char)
  project : Option (List Char)
  priority_str : Option (List Char)
  date_str : Option (List Char)
  done : Bool
deriving DecidableEq, Repr

/-- The score of a row, recomputed at read time. -/
def scoreOf (t : Task) (today : CivilDate) : Option Int :=
  calc_total_score t.tag t.priority_str t.date_str today

/-- The set `used` computed by `next_available_id`: the `task_id`s of *all*
of the user's rows — completed rows included, the query has no `done`
filter. -/
def usedOf (tasks : List Task) (uid : Nat) : List Nat :=
  (tasks.filter (fun t => t.user_id == uid)).map Task.task_id

/-- `next_available_id` from `src/bot.py`: the loop returns the first `i`
in `range(1, 100)` not among the user's used numbers, falling back to 99
when every number is taken. -/
def next_available_id (tasks : List Task) (uid : Nat) : Nat :=
  match (List.range' 1 99).find? (fun i => !(usedOf tasks uid).contains i) with
  | some i => i
  | none => 99

/-- Does the character list start with the given pattern? -/
def startsWithList : List Char → List Char → Bool
  | _, [] => true
  | [], _ :: _ => false
  | c :: cs, d :: ds => c = d && startsWithList cs ds

/-- Substring test: does `pat` occur contiguously in the list? -/
def containsSub (pat : List Char) : List Char → Bool
  | [] => pat.isEmpty
  | c :: rest => startsWithList (c :: rest) pat || containsSub pat rest

/-- Case-insensitive substring test, the guarantee of the SQL
`ilike '%pattern%'` project filter. -/
def containsCI (hay pat : List Char) : Bool :=
  containsSub (pat.map Char.toLower) (hay.map Char.toLower)

/-- Stable descending insertion: `x` steps over every element with a
strictly greater key and lands before the first element whose key is `≤`
its own, so an element placed earlier keeps its position relative to
equal-key elements inserted below it. -/
def insertDesc (key : Task → Int) (x : Task) : List Task → List Task
  | [] => [x]
  | y :: ys => if key x < key y then y :: insertDesc key x ys else x :: y :: ys

/-- Stable descending sort by `key`: the behavior of Python
`list.sort(key=..., reverse=True)` (Timsort is stable, and `reverse=True`
still keeps equal-key elements in their original order). -/
def sortDesc (key : Task → Int) : List Task → List Task
  | [] => []
  | x :: xs => insertDesc key x (sortDesc key xs)

/-- The store-side selection of `get_tasks` from `src/bot.py`: the owner's
non-completed rows, optionally filtered by exact tag equality (argument
upper-cased) or case-insensitive project substring (`ilike`), in the order
the store returns them. -/
def storeQuery (tasks : List Task) (uid : Nat)
    (tagF projF : Option (List Char)) : List Task :=
  tasks.filter (fun t =>
    t.user_id == uid && t.done == false
    && (match tagF with
        | none => true
        | some tg => t.tag == some (tg.map Char.toUpper))
    && (match projF with
        | none => true
        | some p =>
          match t.project with
          | none => false
          | some pr => containsCI pr p))

/-- The sorting step of `get_tasks`: recompute every score and sort rows by
score descending.  A score computation that raises propagates out of
`get_tasks`; that outcome is modelled as `none`. -/
def get_tasks (tasks : List Task) (uid : Nat) (tagF projF : Option (List Char))
    (today : CivilDate) : Option (List Task) :=
  let rows := storeQuery tasks uid tagF projF
  if rows.all (fun t => (scoreOf t today).isSome) then
    some (sortDesc (fun t => (scoreOf t today).getD 0) rows)
  else none

/-- The five editable fields of `/edit`. -/
inductive EField where
  | title
  | tag
  | project
  | priority
  | date
deriving DecidableEq, Repr

/-- Read the stored column an edit field maps to (`title` is the only
non-nullable column). -/
def getField (t : Task) : EField → Option (List Char)
  | .title => some t.title
  | .tag => t.tag
  | .project => t.project
  | .priority => t.priority_str
  | .date => t.date_str

/-- Write the stored column an edit field maps to.  Every write the program
performs carries a concrete string (an edit value, or a captured old title),
so the `none`-to-`title` case is unreachable and kept as the identity. -/
def setField (t : Task) : EField → Option (List Char) → Task
  | .title, v => { t with title := v.getD t.title }
  | .tag, v => { t with tag := v }
  | .project, v => { t with project := v }
  | .priority, v => { t with priority_str := v }
  | .date, v => { t with date_str := v }

/-- The `field_map` lookup of `cmd_edit`: the five user-facing field names. -/
def field_map (field : List Char) : Option EField :=
  if field = "title".data then some .title
  else if field = "tag".data then some .tag
  else if field = "project".data then some .project
  else if field = "priority".data then some .priority
  else if field = "date".data then some .date
  else none

/-- The pending undo action recorded in an owner's slot, one constructor per
`action` kind written into `ctx.bot_data`. -/
inductive UndoAction where
  | create (row_id : Nat)
  | done1 (row_id : Nat)
  | doneAll (row_ids : List Nat)
  | delete (data : Task)
  | edit (row_id : Nat) (field : EField) (old_value : Option (List Char))
deriving DecidableEq, Repr

/-- The whole mutable state: the store rows, the store's id sequence, and
the per-owner undo slots. -/
structure BotState where
  tasks : List Task
  next_row_id : Nat
  undo : List (Nat × UndoAction)
deriving DecidableEq, Repr

/-- Read an owner's undo slot (`bot_data.get`-style lookup). -/
def slotGet (m : List (Nat × UndoAction)) (k : Nat) : Option UndoAction :=
  match m.find? (fun e => e.1 == k) with
  | some e => some e.2
  | none => none

/-- Overwrite an owner's undo slot (dictionary assignment). -/
def slotSet (m : List (Nat × UndoAction)) (k : Nat) (v : UndoAction) :
    List (Nat × UndoAction) :=
  (k, v) :: m.filter (fun e => e.1 != k)

/-- Remove an owner's undo slot (dictionary `pop`). -/
def slotDel (m : List (Nat × UndoAction)) (k : Nat) : List (Nat × UndoAction) :=
  m.filter (fun e => e.1 != k)

/-- Replies visible to the caller, reduced to the outcomes the claims
distinguish. -/
inductive Reply where
  | created (task_id : Nat)
  | completed
  | deleted
  | edited
  | undone
  | notFound
  | badField
  | nothingToUndo
  | emptyTitle
deriving DecidableEq, Repr

/-- The row lookup shared by `/done`, `/del` and `/edit`:
`select * where user_id = uid and task_id = n and done = false`, the handler
using the first returned row. -/
def findActive (tasks : List Task) (uid n : Nat) : Option Task :=
  tasks.find? (fun t => t.user_id == uid && t.task_id == n && t.done == false)

/-- `cmd_done` from `src/bot.py` for a single numeric argument: resolve the
number against the owner's active rows; on success set `done` and record the
action in the undo slot, otherwise report not-found and change nothing. -/
def cmd_done (st : BotState) (uid n : Nat) : BotState × Reply :=
  match findActive st.tasks uid n with
  | none => (st, .notFound)
  | some r =>
    ({ st with
        tasks := st.tasks.map (fun t => if t.id == r.id then { t with done := true } else t)
        undo := slotSet st.undo uid (.done1 r.id) }, .completed)

/-- `cmd_del` from `src/bot.py`: resolve the number against the owner's
active rows; on success delete the row by internal id and capture the entire
prior record in the undo slot, otherwise report not-found and change
nothing. -/
def cmd_del (st : BotState) (uid n : Nat) : BotState × Reply :=
  match findActive st.tasks uid n with
  | none => (st, .notFound)
  | some r =>
    ({ st with
        tasks := st.tasks.filter (fun t => t.id != r.id)
        undo := slotSet st.undo uid (.delete r) }, .deleted)

/-- `cmd_edit` from `src/bot.py`: lower-case the field name, resolve the
number against the owner's active rows (the not-found check runs before the
field-name check), validate the field name, record the old value in the undo
slot, and write the new value — upper-cased for `tag`, verbatim for every
other field. -/
def cmd_edit (st : BotState) (uid n : Nat) (fieldArg value : List Char) :
    BotState × Reply :=
  let field := fieldArg.map Char.toLower
  match findActive st.tasks uid n with
  | none => (st, .notFound)
  | some r =>
    match field_map field with
    | none => (st, .badField)
    | some f =>
      let v := if f = EField.tag then value.map Char.toUpper else value
      ({ st with
          tasks := st.tasks.map (fun t => if t.id == r.id then setField t f (some v) else t)
          undo := slotSet st.undo uid (.edit r.id f (getField r f)) }, .edited)

/-- `cmd_undo` from `src/bot.py`.  `bot_data.pop(key, None)` reads and
consumes the slot in one step (popping an absent key changes nothing); an
empty slot reports "nothing to undo", otherwise the recorded action's
inverse is applied.  In the source the `delete` inverse is preceded by
`data.pop("_score", None)` on line 349, mis-indented by one space — an
`IndentationError` that prevents the whole file from loading; the evident
intent (discard the transient score, re-insert the captured row) is
modelled, the pop being the identity here because this `Task` record never
stores the transient score. -/
def cmd_undo (st : BotState) (uid : Nat) : BotState × Reply :=
  match slotGet st.undo uid with
  | none => (st, .nothingToUndo)
  | some a =>
    let undo1 := slotDel st.undo uid
    match a with
    | .create rid =>
      ({ st with tasks := st.tasks.filter (fun t => t.id != rid), undo := undo1 }, .undone)
    | .done1 rid =>
      ({ st with
          tasks := st.tasks.map (fun t => if t.id == rid then { t with done := false } else t)
          undo := undo1 }, .undone)
    | .doneAll rids =>
      ({ st with
          tasks := st.tasks.map (fun t => if rids.contains t.id then { t with done := false } else t)
          undo := undo1 }, .undone)
    | .delete data =>
      ({ st with tasks := st.tasks ++ [data], undo := undo1 }, .undone)
    | .edit rid f old =>
      ({ st with
          tasks := st.tasks.map (fun t => if t.id == rid then setField t f old else t)
          undo := undo1 }, .undone)

/-- `handle_message` from `src/bot.py`: any non-command text creates a task.
Strip, parse; an empty title is rejected before any persistence (the
handler's silent return on empty input and its "needs a title" reply are
merged into one `emptyTitle` outcome); otherwise allocate the smallest free
task number, insert the record — the store assigns the next internal id —
and record the create as the pending undo action. -/
def handle_message (st : BotState) (uid : Nat) (text : List Char) :
    BotState × Reply :=
  let parsed := parse_task (strip text)
  if parsed.title.isEmpty then (st, .emptyTitle)
  else
    let tid := next_available_id st.tasks uid
    let row : Task :=
      { id := st.next_row_id, user_id := uid, task_id := tid
        title := parsed.title, tag := parsed.tag, project := parsed.project
        priority_str := parsed.priority_str, date_str := parsed.date_str
        done := false }
    ({ tasks := st.tasks ++ [row]
       next_row_id := st.next_row_id + 1
       undo := slotSet st.undo uid (.create st.next_row_id) }, .created tid)

/-! ## General lemmas -/

/-- What `find?` returning `some i` on `range' a n` means: `i` satisfies the
predicate, lies in `[a, a+n)`, and every smaller candidate fails it. -/
theorem range'_find?_some {p : Nat → Bool} :
    ∀ {n a i : Nat}, (List.range' a n).find? p = some i →
      p i = true ∧ a ≤ i ∧ i < a + n ∧ ∀ j, a ≤ j → j < i → p j = false := by
  intro n
  induction n with
  | zero => intro a i h; simp at h
  | succ n ih =>
    intro a i h
    rw [List.range'_succ] at h
    cases hpa : p a with
    | true =>
      rw [List.find?_cons, hpa] at h
      obtain rfl : a = i := by simpa using h
      exact ⟨hpa, Nat.le_refl a, by omega, fun j h1 h2 => by omega⟩
    | false =>
      rw [List.find?_cons, hpa] at h
      obtain ⟨h1, h2, h3, h4⟩ := ih h
      refine ⟨h1, by omega, by omega, fun j hj1 hj2 => ?_⟩
      rcases Nat.eq_or_lt_of_le hj1 with rfl | hj
      · exact hpa
      · exact h4 j hj hj2

/-- What `find?` returning `none` on `range' a n` means: every candidate in
`[a, a+n)` fails the predicate. -/
theorem range'_find?_none {p : Nat → Bool} {n a : Nat}
    (h : (List.range' a n).find? p = none) :
    ∀ j, a ≤ j → j < a + n → p j = false := by
  intro j hj1 hj2
  rw [List.find?_eq_none] at h
  have hm : j ∈ List.range' a n := by
    rw [List.mem_range']
    exact ⟨j - a, by omega, by omega⟩
  simpa using h j hm

/-! ## C1 — task-number allocation -/

/-- C1 (amended): on creating a task, the assigned `task_number` is the
smallest positive integer in [1, 99] not used by *any* of the owner's
tasks — completed rows included, since the query has no `done` filter — so
numbers freed by deletion are reused but completion does not free a number;
when all of 1..99 are used, 99 is returned.  Formally: the result lies in
[1, 99], every smaller positive number is used, the result itself is unused
unless every number in [1, 99] is used, and in that exhausted case the
result is 99. -/
theorem next_available_id_spec (tasks : List Task) (uid : Nat) :
    (1 ≤ next_available_id tasks uid ∧ next_available_id tasks uid ≤ 99)
    ∧ (∀ j, 1 ≤ j → j < next_available_id tasks uid →
        (usedOf tasks uid).contains j = true)
    ∧ ((usedOf tasks uid).contains (next_available_id tasks uid) = false
        ∨ ∀ j, 1 ≤ j → j ≤ 99 → (usedOf tasks uid).contains j = true)
    ∧ ((∀ j, 1 ≤ j → j ≤ 99 → (usedOf tasks uid).contains j = true) →
        next_available_id tasks uid = 99) := by
  cases hf : (List.range' 1 99).find? (fun i => !(usedOf tasks uid).contains i) with
  | some i =>
    have hr : next_available_id tasks uid = i := by
      unfold next_available_id; rw [hf]
    obtain ⟨h1, h2, h3, h4⟩ := range'_find?_some hf
    simp only [Bool.not_eq_true'] at h1
    rw [hr]
    refine ⟨⟨h2, by omega⟩, fun j hj1 hj2 => ?_, Or.inl h1, fun hall => ?_⟩
    · have := h4 j hj1 hj2
      simpa using this
    · have := hall i h2 (by omega)
      rw [this] at h1
      cases h1
  | none =>
    have hr : next_available_id tasks uid = 99 := by
      unfold next_available_id; rw [hf]
    have hall := range'_find?_none hf
    rw [hr]
    refine ⟨⟨by omega, by omega⟩, fun j hj1 hj2 => ?_, Or.inr fun j hj1 hj2 => ?_,
      fun _ => rfl⟩
    · have := hall j hj1 (by omega)
      simpa using this
    · have := hall j hj1 (by omega)
      simpa using this

/-- C1 counterexample: an owner whose *active* task numbers are exactly
{1, 3} but who also has a completed task numbered 2.  The claim says
creation assigns 2 (the smallest number unused by active tasks); the code
assigns 4, because the completed task still occupies number 2. -/
theorem next_available_id_cx :
    (([⟨1, 7, 1, "a".data, none, none, none, none, false⟩,
       ⟨2, 7, 2, "b".data, none, none, none, none, true⟩,
       ⟨3, 7, 3, "c".data, none, none, none, none, false⟩] : List Task).filter
        (fun t => t.user_id == 7 && t.done == false)).map Task.task_id = [1, 3]
    ∧ next_available_id
        [⟨1, 7, 1, "a".data, none, none, none, none, false⟩,
         ⟨2, 7, 2, "b".data, none, none, none, none, true⟩,
         ⟨3, 7, 3, "c".data, none, none, none, none, false⟩] 7 = 4 := by
  decide

/-- Witness for `next_available_id_spec` at a concrete store: with numbers
{1, 2, 3} taken, number 1 is reported used (it is below the allocated 4). -/
theorem next_available_id_spec_witness :
    (usedOf
      [⟨1, 7, 1, "a".data, none, none, none, none, false⟩,
       ⟨2, 7, 2, "b".data, none, none, none, none, true⟩,
       ⟨3, 7, 3, "c".data, none, none, none, none, false⟩] 7).contains 1 = true :=
  (next_available_id_spec
    [⟨1, 7, 1, "a".data, none, none, none, none, false⟩,
     ⟨2, 7, 2, "b".data, none, none, none, none, true⟩,
     ⟨3, 7, 3, "c".data, none, none, none, none, false⟩] 7).2.1 1 (by decide)
    (by decide)

/-! ## C2 — the scoring formula

The claim describes the three components of the total score in its own
words; the spec-side definitions below transcribe those words and are then
compared with the source's functions. -/

/-- Spec-side tag weight, as the claim words it: 3 for `FGR`, 3 for `CETS`,
2 for `CS`, 0 for an absent or unknown tag. -/
def specTagWeight : Option (List Char) → Int
  | none => 0
  | some t =>
    if t = "FGR".data then 3
    else if t = "CETS".data then 3
    else if t = "CS".data then 2
    else 0

/-- Spec-side priority value on the structured form of a priority code
(direction flag and magnitude digit), as the claim words it: 0 if absent,
else +1 for `U` or −1 for `N`, plus the magnitude digit. -/
def specPriorityValue : Option (Char × Char) → Int
  | none => 0
  | some p => (if p.1 = 'U' then 1 else -1) + (digitVal p.2 : Int)

/-- Spec-side date value, as the claim words it: 0 if absent or
unparseable; 3 when the due date minus today is at most 3 days; 2 when the
difference is in (3, 15]; 1 beyond 15. -/
def specDateValue (ds : Option (List Char)) (today : CivilDate) : Int :=
  match ds with
  | none => 0
  | some l =>
    match parseDDMMYY l with
    | none => 0
    | some d =>
      let delta : Int := (toDayNumber d : Int) - (toDayNumber today : Int)
      if delta ≤ 3 then 3 else if delta ≤ 15 then 2 else 1

/-- The priority component of the source agrees with the claim's wording on
every well-formed priority code. -/
theorem calc_priority_value_spec (pc : Option (Char × Char))
    (h : ∀ p ∈ pc, (p.1 = 'U' ∨ p.1 = 'N') ∧ isDigit p.2 = true) :
    calc_priority_value (pc.map fun p => [p.1, p.2]) = some (specPriorityValue pc) := by
  cases pc with
  | none => rfl
  | some p =>
    obtain ⟨hd, hdig⟩ := h p rfl
    simp only [Option.map_some', calc_priority_value, specPriorityValue, hdig,
      if_true]

/-- The date component of the source agrees with the claim's wording on
every input (the source splits "due or overdue" from "within three days",
both worth 3). -/
theorem calc_date_value_spec (ds : Option (List Char)) (today : CivilDate) :
    calc_date_value ds today = specDateValue ds today := by
  cases ds with
  | none => rfl
  | some l =>
    cases l with
    | nil => rfl
    | cons c cs =>
      simp only [calc_date_value, specDateValue, List.isEmpty_cons,
        Bool.false_eq_true, if_false]
      cases parseDDMMYY (c :: cs) with
      | none => rfl
      | some d =>
        dsimp only
        split_ifs <;> omega

/-- C2: for every tag, well-formed priority code, due code and today-date,
the total score is the tag weight (3 for FGR, 3 for CETS, 2 for CS, 0
otherwise) plus the priority value (0 if absent, else ±1 for the direction
plus the magnitude digit) plus the date value (0 if absent or unparseable,
3 if due within 3 days or overdue, 2 up to 15 days out, 1 beyond); in
particular score(FGR, U2, 150226, 2026-02-10) = 8. -/
theorem calc_total_score_spec (tag ds : Option (List Char))
    (pc : Option (Char × Char)) (today : CivilDate)
    (h : ∀ p ∈ pc, (p.1 = 'U' ∨ p.1 = 'N') ∧ isDigit p.2 = true) :
    calc_total_score tag (pc.map fun p => [p.1, p.2]) ds today
      = some (specTagWeight tag + specPriorityValue pc + specDateValue ds today)
    ∧ calc_total_score (some "FGR".data) (some "U2".data) (some "150226".data)
        ⟨2026, 2, 10⟩ = some 8 := by
  refine ⟨?_, by decide⟩
  have htag :
      (match tag with
        | none => (0 : Int)
        | some t => if t.isEmpty then 0 else TAG_VALUES t) = specTagWeight tag := by
    cases tag with
    | none => rfl
    | some t => cases t <;> rfl
  unfold calc_total_score
  rw [calc_priority_value_spec pc h, calc_date_value_spec, htag]
  rfl

/-- Witness for `calc_total_score_spec` at the claim's example: tag `FGR`,
priority code `U2`, due `150226`, today 2026-02-10 scores 3 + 3 + 2 = 8. -/
theorem calc_total_score_spec_witness :
    calc_total_score (some "FGR".data)
        (Option.map (fun p => [p.1, p.2]) (some ('U', '2')))
        (some "150226".data) ⟨2026, 2, 10⟩
      = some (specTagWeight (some "FGR".data) + specPriorityValue (some ('U', '2'))
          + specDateValue (some "150226".data) ⟨2026, 2, 10⟩) :=
  (calc_total_score_spec (some "FGR".data) (some "150226".data)
    (some ('U', '2')) ⟨2026, 2, 10⟩ (by decide)).1

/-! ## C3 — the parser's contract

The shapes the grammar promises for the extracted fields, and the
normal form of the title. -/

/-- A priority code as stored by the parser: an upper-case direction letter
`U` or `N` followed by one digit. -/
def prioShape (p : List Char) : Bool :=
  match p with
  | [d, g] => (d = 'U' || d = 'N') && isDigit g
  | _ => false

/-- A due code as stored by the parser: exactly six digits. -/
def dateShape (ds : List Char) : Bool :=
  (ds.length == 6) && ds.all isDigit

/-- Every whitespace character in the list is a plain space. -/
def spacesPlain (l : List Char) : Bool :=
  l.all (fun c => !isSpace c || c = ' ')

/-- No two adjacent whitespace characters. -/
def noRun : List Char → Bool
  | [] => true
  | [_] => true
  | a :: b :: rest => !(isSpace a && isSpace b) && noRun (b :: rest)

/-- The first character, if any, is not whitespace. -/
def headNoSpace (l : List Char) : Bool :=
  l.head?.all (fun c => !isSpace c)

/-- The last character, if any, is not whitespace. -/
def lastNoSpace (l : List Char) : Bool :=
  l.getLast?.all (fun c => !isSpace c)

/-- Normal form of a title: whitespace runs collapsed to single plain
spaces, no leading or trailing whitespace. -/
def isNormalized (l : List Char) : Bool :=
  spacesPlain l && noRun l && headNoSpace l && lastNoSpace l

/-- A payload delivered by `searchCut` was produced by the underlying
anchored matcher at some position, so any property of the matcher's
payloads holds for it. -/
theorem searchCut_shape {α : Type} {Q : α → Prop} {try1 : List Char → Option (α × Nat)}
    (H : ∀ l pr, try1 l = some pr → Q pr.1) :
    ∀ (l : List Char) (p : α) (res : List Char),
      searchCut try1 l = some (p, res) → Q p := by
  intro l
  induction l with
  | nil => intro p res h; simp [searchCut] at h
  | cons c rest ih =>
    intro p res h
    simp only [searchCut] at h
    cases h1 : try1 (c :: rest) with
    | some pr =>
      obtain ⟨p', n⟩ := pr
      rw [h1] at h
      simp only [Option.some.injEq, Prod.mk.injEq] at h
      obtain ⟨rfl, -⟩ := h
      exact H _ _ h1
    | none =>
      rw [h1] at h
      cases h2 : searchCut try1 rest with
      | some pr2 =>
        obtain ⟨p2, r2⟩ := pr2
        rw [h2] at h
        simp only [Option.some.injEq, Prod.mk.injEq] at h
        obtain ⟨rfl, -⟩ := h
        exact ih _ _ h2
      | none => rw [h2] at h; exact Option.noConfusion h

/-- The priority matcher only delivers a direction letter in
`{U, u, N, n}` together with a digit. -/
theorem tryPrio_shape (l : List Char) (pr : (Char × Char) × Nat)
    (h : tryPrio l = some pr) :
    (pr.1.1 = 'U' ∨ pr.1.1 = 'u' ∨ pr.1.1 = 'N' ∨ pr.1.1 = 'n')
    ∧ isDigit pr.1.2 = true := by
  rcases l with _ | ⟨a, _ | ⟨b, rest⟩⟩
  · simp [tryPrio] at h
  · simp [tryPrio] at h
  · simp only [tryPrio] at h
    split at h
    · split at h
      · split at h
        next hdir =>
          split at h
          · split at h
            next hdig =>
              obtain rfl : _ = pr := Option.some.inj h
              refine ⟨?_, hdig⟩
              have := hdir
              simp only [Bool.or_eq_true, decide_eq_true_eq] at this
              tauto
            next => exact Option.noConfusion h
          next => exact Option.noConfusion h
        next => exact Option.noConfusion h
      next => exact Option.noConfusion h
    · exact Option.noConfusion h

/-- The date matcher only delivers six-digit payloads. -/
theorem tryDate_shape (l : List Char) (pr : List Char × Nat)
    (h : tryDate l = some pr) : dateShape pr.1 = true := by
  rcases l with _ | ⟨a, _ | ⟨b, rest⟩⟩
  · simp [tryDate] at h
  · simp [tryDate] at h
  · simp only [tryDate] at h
    split at h
    · split at h
      next hlen =>
        obtain rfl : _ = pr := Option.some.inj h
        have h6 : (List.take 6 (List.takeWhile isDigit
            (List.drop (List.takeWhile isSpace rest).length rest))).length = 6 := by
          rw [List.length_take]
          omega
        rw [dateShape, Bool.and_eq_true, List.all_eq_true]
        refine ⟨by simpa using h6, fun x hx => ?_⟩
        have hx2 := List.take_subset _ _ hx
        have := List.all_takeWhile
          (l := List.drop (List.takeWhile isSpace rest).length rest) (p := isDigit)
        rw [List.all_eq_true] at this
        exact this x hx2
      next => exact Option.noConfusion h
    · exact Option.noConfusion h

/-- The stored priority string, after upper-casing the direction, satisfies
`prioShape`. -/
theorem prioShape_payload {d g : Char}
    (hd : d = 'U' ∨ d = 'u' ∨ d = 'N' ∨ d = 'n') (hg : isDigit g = true) :
    prioShape [Char.toUpper d, g] = true := by
  rcases hd with rfl | rfl | rfl | rfl <;> simp [prioShape, hg]

/-- Unfolding `squeeze` one character at a time. -/
theorem squeeze_cons (c : Char) (l : List Char) :
    squeeze (c :: l) =
      if isSpace c then
        match squeeze l with
        | a :: _ => if a = ' ' then squeeze l else ' ' :: squeeze l
        | [] => [' ']
      else c :: squeeze l := rfl

/-- The output of `squeeze` uses only plain spaces and never two adjacent
whitespace characters. -/
theorem squeeze_ok (l : List Char) :
    spacesPlain (squeeze l) = true ∧ noRun (squeeze l) = true := by
  induction l with
  | nil => exact ⟨rfl, rfl⟩
  | cons c l ih =>
    obtain ⟨ih1, ih2⟩ := ih
    rw [squeeze_cons]
    by_cases hc : isSpace c = true
    · rw [if_pos hc]
      cases hsq : squeeze l with
      | nil => exact ⟨by decide, by decide⟩
      | cons a m =>
        rw [hsq] at ih1 ih2
        by_cases ha : a = ' '
        · dsimp only
          rw [if_pos ha]
          exact ⟨ih1, ih2⟩
        · dsimp only
          rw [if_neg ha]
          have hA : isSpace a = false := by
            rw [spacesPlain, List.all_cons, Bool.and_eq_true] at ih1
            rcases Bool.or_eq_true_iff.mp ih1.1 with h | h
            · simpa using h
            · exact absurd (by simpa using h) ha
          constructor
          · rw [spacesPlain, List.all_cons]
            rw [spacesPlain] at ih1
            simp [ih1]
          · rw [noRun, hA]
            simpa using ih2
    · rw [if_neg hc]
      replace hc : isSpace c = false := by simpa using hc
      constructor
      · rw [spacesPlain, List.all_cons, hc]
        rw [spacesPlain] at ih1
        simp [ih1]
      · cases hsq : squeeze l with
        | nil => rfl
        | cons a m =>
          rw [hsq] at ih2
          rw [noRun, hc]
          simpa using ih2

/-- A sublist of a plain-space list is plain-space. -/
theorem spacesPlain_sublist {l m : List Char} (hs : m.Sublist l)
    (h : spacesPlain l = true) : spacesPlain m = true := by
  rw [spacesPlain, List.all_eq_true] at h ⊢
  exact fun x hx => h x (hs.subset hx)

/-- `noRun` survives dropping a head. -/
theorem noRun_tail {a : Char} {l : List Char} (h : noRun (a :: l) = true) :
    noRun l = true := by
  cases l with
  | nil => rfl
  | cons b m =>
    rw [noRun, Bool.and_eq_true] at h
    exact h.2

/-- `noRun` survives `dropWhile`. -/
theorem noRun_dropWhile (p : Char → Bool) :
    ∀ l : List Char, noRun l = true → noRun (l.dropWhile p) = true := by
  intro l
  induction l with
  | nil => intro h; exact h
  | cons a l ih =>
    intro h
    rw [List.dropWhile_cons]
    split_ifs with hp
    · exact ih (noRun_tail h)
    · exact h

/-- After dropping leading whitespace, the head is not whitespace. -/
theorem headNoSpace_dropWhile :
    ∀ l : List Char, headNoSpace (l.dropWhile isSpace) = true := by
  intro l
  induction l with
  | nil => rfl
  | cons a l ih =>
    rw [List.dropWhile_cons]
    split_ifs with hp
    · exact ih
    · simp [headNoSpace, hp]

/-- Unfolding `rstrip` one character at a time. -/
theorem rstrip_cons (c : Char) (l : List Char) :
    rstrip (c :: l) =
      if (rstrip l).isEmpty && isSpace c then [] else c :: rstrip l := rfl

/-- `rstrip` keeps any `all` invariant. -/
theorem all_rstrip (p : Char → Bool) :
    ∀ l : List Char, l.all p = true → (rstrip l).all p = true := by
  intro l
  induction l with
  | nil => intro h; exact h
  | cons c l ih =>
    intro h
    rw [List.all_cons, Bool.and_eq_true] at h
    rw [rstrip_cons]
    split_ifs with hg
    · rfl
    · rw [List.all_cons, Bool.and_eq_true]
      exact ⟨h.1, ih h.2⟩

/-- A nonempty `rstrip` result starts with the original head. -/
theorem rstrip_head : ∀ {l : List Char} {a : Char} {m : List Char},
    rstrip l = a :: m → ∃ l', l = a :: l' ∧ rstrip l' = m := by
  intro l a m h
  cases l with
  | nil => simp [rstrip] at h
  | cons c l' =>
    rw [rstrip_cons] at h
    by_cases hg : ((rstrip l').isEmpty && isSpace c) = true
    · rw [if_pos hg] at h
      exact List.noConfusion h
    · rw [if_neg hg] at h
      obtain ⟨rfl, rfl⟩ := List.cons.inj h
      exact ⟨l', rfl, rfl⟩

/-- `rstrip` keeps `noRun`. -/
theorem noRun_rstrip : ∀ l : List Char, noRun l = true → noRun (rstrip l) = true := by
  intro l
  induction l with
  | nil => intro h; exact h
  | cons c l ih =>
    intro h
    rw [rstrip_cons]
    split_ifs with hg
    · rfl
    · have hr := ih (noRun_tail h)
      cases hrs : rstrip l with
      | nil => rfl
      | cons a m =>
        obtain ⟨l'', rfl, -⟩ := rstrip_head hrs
        rw [noRun] at h
        rw [noRun]
        rw [hrs] at hr
        rw [Bool.and_eq_true] at h ⊢
        exact ⟨h.1, hr⟩

/-- `rstrip` leaves no trailing whitespace. -/
theorem lastNoSpace_rstrip : ∀ l : List Char, lastNoSpace (rstrip l) = true := by
  intro l
  induction l with
  | nil => rfl
  | cons c l ih =>
    rw [rstrip_cons]
    split_ifs with hg
    · rfl
    · cases hrs : rstrip l with
      | nil =>
        rw [hrs] at hg
        simp only [List.isEmpty_nil, Bool.true_and] at hg
        simp [lastNoSpace, List.getLast?, hg]
      | cons a m =>
        rw [hrs] at ih
        simpa [lastNoSpace, List.getLast?_cons_cons] using ih

/-- `rstrip` keeps a whitespace-free head. -/
theorem headNoSpace_rstrip {l : List Char} (h : headNoSpace l = true) :
    headNoSpace (rstrip l) = true := by
  cases l with
  | nil => exact h
  | cons c l' =>
    rw [rstrip_cons]
    split_ifs with hg
    · rfl
    · simpa [headNoSpace] using h

/-- The title-producing pipeline `strip (squeeze ·)` always yields a
normalized string. -/
theorem strip_squeeze_normalized (l : List Char) :
    isNormalized (strip (squeeze l)) = true := by
  obtain ⟨h1, h2⟩ := squeeze_ok l
  rw [strip, lstrip]
  have hm1 : spacesPlain ((squeeze l).dropWhile isSpace) = true :=
    spacesPlain_sublist (List.dropWhile_sublist _) h1
  have hm2 : noRun ((squeeze l).dropWhile isSpace) = true :=
    noRun_dropWhile _ _ h2
  have hm3 : headNoSpace ((squeeze l).dropWhile isSpace) = true :=
    headNoSpace_dropWhile _
  rw [isNormalized]
  simp only [Bool.and_eq_true]
  exact ⟨⟨⟨all_rstrip _ _ hm1, noRun_rstrip _ hm2⟩, headNoSpace_rstrip hm3⟩,
    lastNoSpace_rstrip _⟩

/-- Each extraction pass keeps the stored priority and date fields in the
shapes the grammar promises. -/
theorem applyTok_inv {st : ParseSt} (tk : Tok)
    (h1 : st.priority_str.all prioShape = true)
    (h2 : st.date_str.all dateShape = true) :
    ((applyTok st tk).priority_str.all prioShape = true)
    ∧ ((applyTok st tk).date_str.all dateShape = true) := by
  cases tk with
  | tagT =>
    rw [applyTok]
    cases h : searchCut tryTag st.raw with
    | none => exact ⟨h1, h2⟩
    | some pr => obtain ⟨g, res⟩ := pr; exact ⟨h1, h2⟩
  | projT =>
    rw [applyTok]
    cases h : searchCut tryProj st.raw with
    | none => exact ⟨h1, h2⟩
    | some pr => obtain ⟨g, res⟩ := pr; exact ⟨h1, h2⟩
  | prioT =>
    rw [applyTok]
    cases h : searchCut tryPrio st.raw with
    | none => exact ⟨h1, h2⟩
    | some pr =>
      obtain ⟨dg, res⟩ := pr
      have hs := searchCut_shape
        (Q := fun dg : Char × Char =>
          (dg.1 = 'U' ∨ dg.1 = 'u' ∨ dg.1 = 'N' ∨ dg.1 = 'n') ∧ isDigit dg.2 = true)
        (fun l pr hp => tryPrio_shape l pr hp) st.raw dg res h
      refine ⟨?_, h2⟩
      simpa [Option.all_some] using prioShape_payload hs.1 hs.2
  | dateT =>
    rw [applyTok]
    cases h : searchCut tryDate st.raw with
    | none => exact ⟨h1, h2⟩
    | some pr =>
      obtain ⟨g, res⟩ := pr
      have hs := searchCut_shape (Q := fun g : List Char => dateShape g = true)
        (fun l pr hp => tryDate_shape l pr hp) st.raw g res h
      refine ⟨h1, ?_⟩
      simpa [Option.all_some] using hs

/-- The extraction invariant carried through any sequence of passes. -/
theorem foldl_applyTok_inv (order : List Tok) :
    ∀ st : ParseSt,
      st.priority_str.all prioShape = true →
      st.date_str.all dateShape = true →
      ((order.foldl applyTok st).priority_str.all prioShape = true)
      ∧ ((order.foldl applyTok st).date_str.all dateShape = true) := by
  induction order with
  | nil => intro st h1 h2; exact ⟨h1, h2⟩
  | cons tk rest ih =>
    intro st h1 h2
    obtain ⟨g1, g2⟩ := applyTok_inv tk h1 h2
    exact ih _ g1 g2

/-- The priority and date fields produced by `parse_task` always have the
shapes the grammar promises. -/
theorem parse_fields_shape (s : List Char) :
    ((parse_task s).priority_str.all prioShape = true)
    ∧ ((parse_task s).date_str.all dateShape = true) := by
  rw [parse_task_eq_parseWithOrder]
  exact foldl_applyTok_inv codeOrder
    { raw := strip s, tag := none, project := none
      priority_str := none, date_str := none } rfl rfl

/-- The title produced by `parse_task` is always in normal form. -/
theorem parse_title_normalized (s : List Char) :
    isNormalized (parse_task s).title = true := by
  rw [parse_task_eq_parseWithOrder]
  exact strip_squeeze_normalized _

/-- C3: the parser extracts at most one each of tag, project, priority and
due date (the result holds one optional field of each kind), every stored
priority code is an upper-case direction letter plus one digit, every
stored due code is exactly six digits, and the title is the residual text
with whitespace runs collapsed to single spaces and trimmed; in particular
the spec's example parses to title "Revisar doc", tag FGR, project
Sellout, priority U2, date 150226. -/
theorem parse_task_contract :
    parse_task "Revisar doc @FGR |e Sellout |pU2 |f150226".data
      = ⟨"Revisar doc".data, some "FGR".data, some "Sellout".data,
          some "U2".data, some "150226".data⟩
    ∧ (∀ s, ((parse_task s).priority_str.all prioShape) = true)
    ∧ (∀ s, ((parse_task s).date_str.all dateShape) = true)
    ∧ (∀ s, isNormalized (parse_task s).title = true) :=
  ⟨by decide, fun s => (parse_fields_shape s).1, fun s => (parse_fields_shape s).2,
    parse_title_normalized⟩

/-! ## C4, C5, C8 — undo memory and targeting errors -/

/-- Writing a slot makes it readable. -/
theorem slotGet_slotSet_self (m : List (Nat × UndoAction)) (k : Nat)
    (v : UndoAction) : slotGet (slotSet m k v) k = some v := by
  simp [slotGet, slotSet, List.find?_cons]

/-- Popping a slot empties it. -/
theorem slotGet_slotDel_self (m : List (Nat × UndoAction)) (k : Nat) :
    slotGet (slotDel m k) k = none := by
  rw [slotGet, slotDel]
  have : List.find? (fun e => e.1 == k) (List.filter (fun e => e.1 != k) m) = none := by
    rw [List.find?_eq_none]
    intro x hx
    rw [List.mem_filter] at hx
    simpa using hx.2
  rw [this]

/-- The row a successful `findActive` returns belongs to the owner, bears
the requested number and is active. -/
theorem findActive_some {tasks : List Task} {uid n : Nat} {r : Task}
    (h : findActive tasks uid n = some r) :
    r.user_id = uid ∧ r.task_id = n ∧ r.done = false := by
  have := List.find?_some h
  simp only [Bool.and_eq_true, beq_iff_eq] at this
  exact ⟨this.1.1, this.1.2, by simpa using this.2⟩

/-- C4 (on the intended code; line 349 of `src/bot.py` is mis-indented and
the module cannot load as written): deleting an active task and immediately
undoing re-inserts the full captured record, so a row exists again for the
owner with the same title, tag, project, priority code, due code and its
original task number. -/
theorem del_undo_restores (st : BotState) (uid n : Nat) (r : Task)
    (h : findActive st.tasks uid n = some r) :
    (cmd_del st uid n).2 = .deleted
    ∧ (cmd_undo (cmd_del st uid n).1 uid).2 = .undone
    ∧ (cmd_undo (cmd_del st uid n).1 uid).1.tasks
        = st.tasks.filter (fun t => t.id != r.id) ++ [r]
    ∧ ∃ t ∈ (cmd_undo (cmd_del st uid n).1 uid).1.tasks,
        t.user_id = uid ∧ t.title = r.title ∧ t.tag = r.tag
        ∧ t.project = r.project ∧ t.priority_str = r.priority_str
        ∧ t.date_str = r.date_str ∧ t.task_id = r.task_id := by
  have hdel : cmd_del st uid n =
      ({ st with
          tasks := st.tasks.filter (fun t => t.id != r.id)
          undo := slotSet st.undo uid (.delete r) }, .deleted) := by
    rw [cmd_del, h]
  have hundo : cmd_undo (cmd_del st uid n).1 uid =
      ({ (cmd_del st uid n).1 with
          tasks := st.tasks.filter (fun t => t.id != r.id) ++ [r]
          undo := slotDel (slotSet st.undo uid (.delete r)) uid }, .undone) := by
    rw [hdel, cmd_undo]
    rw [slotGet_slotSet_self]
  refine ⟨by rw [hdel], by rw [hundo], by rw [hundo], ?_⟩
  refine ⟨r, ?_, (findActive_some h).1, rfl, rfl, rfl, rfl, rfl, rfl⟩
  rw [hundo]
  exact List.mem_append_right _ (List.mem_singleton.mpr rfl)

/-- Witness for `del_undo_restores`: a one-task store, task number 1
deleted and restored. -/
theorem del_undo_restores_witness :
    (cmd_undo
      (cmd_del
        ⟨[⟨1, 7, 1, "a".data, none, none, none, none, false⟩], 2, []⟩ 7 1).1
      7).1.tasks
      = [⟨1, 7, 1, "a".data, none, none, none, none, false⟩] :=
  ((del_undo_restores
    ⟨[⟨1, 7, 1, "a".data, none, none, none, none, false⟩], 2, []⟩ 7 1
    ⟨1, 7, 1, "a".data, none, none, none, none, false⟩ (by decide)).2.2.1).trans
    (by decide)

/-- C5: undo with an empty slot reports "nothing to undo" and changes no
state; any undo leaves the owner's slot empty, so a second undo with no
intervening mutation is that same no-op. -/
theorem undo_oneshot (st : BotState) (uid : Nat) :
    (slotGet st.undo uid = none → cmd_undo st uid = (st, .nothingToUndo))
    ∧ slotGet ((cmd_undo st uid).1).undo uid = none
    ∧ cmd_undo ((cmd_undo st uid).1) uid
        = ((cmd_undo st uid).1, .nothingToUndo) := by
  have hP : ∀ s : BotState, slotGet s.undo uid = none →
      cmd_undo s uid = (s, .nothingToUndo) := by
    intro s hs
    rw [cmd_undo, hs]
  have hslot : slotGet ((cmd_undo st uid).1).undo uid = none := by
    cases hg : slotGet st.undo uid with
    | none => rw [hP st hg]; exact hg
    | some a =>
      have hu : ((cmd_undo st uid).1).undo = slotDel st.undo uid := by
        rw [cmd_undo, hg]
        cases a <;> rfl
      rw [hu]
      exact slotGet_slotDel_self _ _
  exact ⟨hP st, hslot, hP _ hslot⟩

/-- Witness for `undo_oneshot`: on the empty state, undo is the reported
no-op. -/
theorem undo_oneshot_witness :
    cmd_undo ⟨[], 0, []⟩ 1 = (⟨[], 0, []⟩, .nothingToUndo) :=
  (undo_oneshot ⟨[], 0, []⟩ 1).1 rfl

/-- C8: when the task number does not resolve to one of the owner's active
tasks, `/edit` reports not-found and returns the state unchanged — in
particular no task record changes and the owner's undo slot is exactly as
before. -/
theorem edit_notFound (st : BotState) (uid n : Nat)
    (fieldArg value : List Char)
    (h : findActive st.tasks uid n = none) :
    cmd_edit st uid n fieldArg value = (st, .notFound)
    ∧ (cmd_edit st uid n fieldArg value).1.tasks = st.tasks
    ∧ (cmd_edit st uid n fieldArg value).1.undo = st.undo := by
  have he : cmd_edit st uid n fieldArg value = (st, .notFound) := by
    rw [cmd_edit, h]
  exact ⟨he, by rw [he], by rw [he]⟩

/-- Witness for `edit_notFound`: editing task 5 of an empty store. -/
theorem edit_notFound_witness :
    cmd_edit ⟨[], 0, []⟩ 7 5 "title".data "x".data = (⟨[], 0, []⟩, .notFound) :=
  (edit_notFound ⟨[], 0, []⟩ 7 5 "title".data "x".data rfl).1

/-! ## C6 — extraction order -/

/-- All 24 orders in which the four matchers can be applied. -/
def allOrders : List (List Tok) :=
  [[.tagT, .projT, .prioT, .dateT], [.tagT, .projT, .dateT, .prioT],
   [.tagT, .prioT, .projT, .dateT], [.tagT, .prioT, .dateT, .projT],
   [.tagT, .dateT, .projT, .prioT], [.tagT, .dateT, .prioT, .projT],
   [.projT, .tagT, .prioT, .dateT], [.projT, .tagT, .dateT, .prioT],
   [.projT, .prioT, .tagT, .dateT], [.projT, .prioT, .dateT, .tagT],
   [.projT, .dateT, .tagT, .prioT], [.projT, .dateT, .prioT, .tagT],
   [.prioT, .tagT, .projT, .dateT], [.prioT, .tagT, .dateT, .projT],
   [.prioT, .projT, .tagT, .dateT], [.prioT, .projT, .dateT, .tagT],
   [.prioT, .dateT, .tagT, .projT], [.prioT, .dateT, .projT, .tagT],
   [.dateT, .tagT, .projT, .prioT], [.dateT, .tagT, .prioT, .projT],
   [.dateT, .projT, .tagT, .prioT], [.dateT, .projT, .prioT, .tagT],
   [.dateT, .prioT, .tagT, .projT], [.dateT, .prioT, .projT, .tagT]]

/-- C6 counterexample: on the input `"a @x|eY"` the matcher order changes
the result.  The source's order (tag first) swallows `|eY` into the tag
(`@(\S+)` matches any non-whitespace run), yielding tag `X|EY` and no
project; applying the project matcher first yields tag `X` and project
`Y`. -/
theorem parse_order_dependent_cx :
    parseWithOrder [.projT, .tagT, .prioT, .dateT] "a @x|eY".data
      ≠ parse_task "a @x|eY".data := by
  decide

/-- C6 (amended): extraction order does not matter for inputs whose tokens
do not overlap — in particular on the specification's canonical example all
24 matcher orders give the same parse — but it is not order-independent in
general, because one token's non-whitespace run can contain another marker
(see the counterexample `"a @x|eY"`). -/
theorem parse_order_canonical :
    ∀ o ∈ allOrders,
      parseWithOrder o "Revisar doc @FGR |e Sellout |pU2 |f150226".data =
        ⟨"Revisar doc".data, some "FGR".data, some "Sellout".data,
          some "U2".data, some "150226".data⟩ := by
  decide

/-- Witness for `parse_order_canonical` at the source's own order. -/
theorem parse_order_canonical_witness :
    parseWithOrder codeOrder "Revisar doc @FGR |e Sellout |pU2 |f150226".data =
      ⟨"Revisar doc".data, some "FGR".data, some "Sellout".data,
        some "U2".data, some "150226".data⟩ :=
  parse_order_canonical codeOrder (by decide)

/-! ## C7 — the priority digit range -/

/-- C7: the parser accepts *any* digit after the direction letter — the
regex is `\|p\s*([UuNn])\s*(\d)` — although the in-code help text and the
spec's grammar say the magnitude is 1–3.  `|pU5` is accepted and stored as
priority `U5`, where the claim says it must yield no priority code. -/
theorem parse_prio_digit_unrestricted :
    parse_task "Tarea |pU5".data
      = ⟨"Tarea".data, none, none, some "U5".data, none⟩ := by
  decide

/-! ## C9 — listing order -/

/-- Membership in a descending insertion. -/
theorem mem_insertDesc {key : Task → Int} {x a : Task} :
    ∀ {l : List Task}, a ∈ insertDesc key x l → a = x ∨ a ∈ l := by
  intro l
  induction l with
  | nil =>
    intro h
    rw [insertDesc] at h
    exact Or.inl (List.mem_singleton.mp h)
  | cons y ys ih =>
    intro h
    rw [insertDesc] at h
    split_ifs at h with hk
    · rcases List.mem_cons.mp h with rfl | h2
      · exact Or.inr (List.mem_cons_self _ _)
      · rcases ih h2 with h3 | h3
        · exact Or.inl h3
        · exact Or.inr (List.mem_cons_of_mem _ h3)
    · rcases List.mem_cons.mp h with rfl | h2
      · exact Or.inl rfl
      · exact Or.inr h2

/-- Descending insertion preserves descending order. -/
theorem pairwise_insertDesc {key : Task → Int} {x : Task} :
    ∀ {l : List Task}, l.Pairwise (fun a b => key b ≤ key a) →
      (insertDesc key x l).Pairwise (fun a b => key b ≤ key a) := by
  intro l
  induction l with
  | nil => intro _; simp [insertDesc]
  | cons y ys ih =>
    intro h
    rw [List.pairwise_cons] at h
    obtain ⟨hy, hys⟩ := h
    rw [insertDesc]
    split_ifs with hk
    · rw [List.pairwise_cons]
      refine ⟨fun a ha => ?_, ih hys⟩
      rcases mem_insertDesc ha with rfl | ha2
      · omega
      · exact hy a ha2
    · rw [List.pairwise_cons]
      refine ⟨fun a ha => ?_, List.pairwise_cons.mpr ⟨hy, hys⟩⟩
      rcases List.mem_cons.mp ha with rfl | ha2
      · omega
      · have := hy a ha2
        omega

/-- The result of `sortDesc` is sorted by descending key. -/
theorem pairwise_sortDesc (key : Task → Int) :
    ∀ l : List Task, (sortDesc key l).Pairwise (fun a b => key b ≤ key a) := by
  intro l
  induction l with
  | nil => simp [sortDesc]
  | cons x xs ih =>
    rw [sortDesc]
    exact pairwise_insertDesc ih

/-- Inserting `x` puts it in front of every equal-key element, and touches
no other element of any fixed key class. -/
theorem filter_insertDesc (key : Task → Int) (v : Int) (x : Task) :
    ∀ l : List Task,
      (insertDesc key x l).filter (fun t => key t == v)
        = (if key x == v then [x] else [])
            ++ l.filter (fun t => key t == v) := by
  intro l
  induction l with
  | nil =>
    rw [insertDesc]
    by_cases hx : (key x == v) = true <;> simp [List.filter_cons, hx]
  | cons y ys ih =>
    rw [insertDesc]
    by_cases hk : key x < key y
    · rw [if_pos hk]
      simp only [List.filter_cons, ih]
      by_cases hy : (key y == v) = true
      · by_cases hx : (key x == v) = true
        · exfalso
          have h1 : key y = v := by simpa using hy
          have h2 : key x = v := by simpa using hx
          omega
        · simp [hy, hx]
      · simp [hy]
    · rw [if_neg hk]
      simp only [List.filter_cons]
      by_cases hx : (key x == v) = true <;> simp [hx]

/-- `sortDesc` is stable: each key class keeps the input's relative
order. -/
theorem filter_sortDesc (key : Task → Int) (v : Int) :
    ∀ l : List Task,
      (sortDesc key l).filter (fun t => key t == v)
        = l.filter (fun t => key t == v) := by
  intro l
  induction l with
  | nil => rfl
  | cons x xs ih =>
    rw [sortDesc, filter_insertDesc, ih]
    simp only [List.filter_cons]
    by_cases hx : (key x == v) = true <;> simp [hx]

/-- C9: whenever listing succeeds, the returned tasks are in descending
total-score order, and tasks of equal score keep the relative order the
store returned them in (each score class's sublist is unchanged); in
particular a task scoring 8 is listed before a task scoring 0 stored ahead
of it. -/
theorem get_tasks_sorted (tasks : List Task) (uid : Nat)
    (tagF projF : Option (List Char)) (today : CivilDate) (out : List Task)
    (h : get_tasks tasks uid tagF projF today = some out) :
    out.Pairwise
      (fun a b => (scoreOf b today).getD 0 ≤ (scoreOf a today).getD 0)
    ∧ (∀ v : Int,
        out.filter (fun t => (scoreOf t today).getD 0 == v)
          = (storeQuery tasks uid tagF projF).filter
              (fun t => (scoreOf t today).getD 0 == v))
    ∧ get_tasks
        [⟨1, 7, 1, "a".data, none, none, none, none, false⟩,
         ⟨2, 7, 2, "b".data, some "FGR".data, none, some "U2".data,
           some "150226".data, false⟩] 7 none none ⟨2026, 2, 10⟩
        = some
          [⟨2, 7, 2, "b".data, some "FGR".data, none, some "U2".data,
             some "150226".data, false⟩,
           ⟨1, 7, 1, "a".data, none, none, none, none, false⟩] := by
  have hout : out = sortDesc (fun t => (scoreOf t today).getD 0)
      (storeQuery tasks uid tagF projF) := by
    simp only [get_tasks] at h
    split_ifs at h with hall
    exact (Option.some.inj h).symm
  subst hout
  exact ⟨pairwise_sortDesc _ _, fun v => filter_sortDesc _ v _, by decide⟩

/-- Witness for `get_tasks_sorted`: the two-task store of the example is
listed score-8 first, score-0 second. -/
theorem get_tasks_sorted_witness :
    ([⟨2, 7, 2, "b".data, some "FGR".data, none, some "U2".data,
        some "150226".data, false⟩,
      ⟨1, 7, 1, "a".data, none, none, none, none, false⟩] : List Task).Pairwise
      (fun a b => (scoreOf b ⟨2026, 2, 10⟩).getD 0 ≤ (scoreOf a ⟨2026, 2, 10⟩).getD 0) :=
  (get_tasks_sorted
    [⟨1, 7, 1, "a".data, none, none, none, none, false⟩,
     ⟨2, 7, 2, "b".data, some "FGR".data, none, some "U2".data,
       some "150226".data, false⟩] 7 none none ⟨2026, 2, 10⟩
    [⟨2, 7, 2, "b".data, some "FGR".data, none, some "U2".data,
       some "150226".data, false⟩,
     ⟨1, 7, 1, "a".data, none, none, none, none, false⟩] (by decide)).1

/-! ## C10 — totality of scoring on reachable records -/

/-- C10 counterexample: a record reachable through the public operations
whose score computation raises.  Create a task, then `/edit` its priority
to the verbatim value `hi` (the edit path stores the supplied value without
re-validating the grammar): `calc_priority_value` evaluates `int("i")`,
which raises `ValueError`, so the record's total score is undefined. -/
theorem score_raises_on_edited_priority :
    (let st1 := (handle_message ⟨[], 1, []⟩ 7 "Lavar ropa".data).1
     let st2 := (cmd_edit st1 7 1 "priority".data "hi".data).1
     st2.tasks.map (fun t => scoreOf t ⟨2026, 2, 10⟩)) = [none] := by
  decide

/-- C10 (amended): for every record created via the parser the total score
is defined (the parser only stores priority codes of the form an upper-case
direction letter plus a digit, on which `calc_priority_value` is total);
but the edit operation stores the supplied priority verbatim, and a record
whose stored priority has a non-digit second character — or a single
character — makes `calc_priority_value` raise, so scoring is not total on
all reachable records. -/
theorem parser_created_score_defined (s : List Char) (today : CivilDate) :
    (calc_total_score (parse_task s).tag (parse_task s).priority_str
      (parse_task s).date_str today).isSome = true := by
  have h := (parse_fields_shape s).1
  cases hp : (parse_task s).priority_str with
  | none => simp [calc_total_score, calc_priority_value]
  | some p =>
    rw [hp] at h
    simp only [Option.all_some] at h
    rcases p with _ | ⟨d, _ | ⟨g, _ | ⟨e, rest⟩⟩⟩
    · exact Bool.noConfusion h
    · exact Bool.noConfusion h
    · rw [prioShape, Bool.and_eq_true] at h
      simp [calc_total_score, calc_priority_value, h.2]
    · exact Bool.noConfusion h

end TaskBot
